import Mathlib

/-
Verification development for the markov_seed repository.

The repository contains several near-duplicate Python variants of a
character-level n-gram "Markov seed generator".  We shallowly embed the
relevant functions of the variants m-cc3.py, m-cc2-2.py and m-cc2.py:

  * Python strings are modelled as `List Char`.
  * The `defaultdict(str, list)` transition table is modelled as an
    insertion-ordered association list `Table`, with operations mirroring
    the dict operations actually used by the code (`in`, `get`,
    `__getitem__` with default-insertion, `.append` on a value).
  * `random.choice(seq)` is modelled by an oracle stream `s : Nat → Nat`
    together with a running position; a successful choice at position
    `pos` returns the element at index `s pos % seq.length` and advances
    the position by one.
  * Exceptions are modelled with `Except`.
-/

/-! ## The transition table (Python `defaultdict(list)` of `str → list[str]`) -/

abbrev Key := List Char

/-- Insertion-ordered association list modelling the Python dict
`self.model : defaultdict[str, List[str]]`. -/
abbrev Table := List (Key × List Char)

/-- Dict lookup: `model[k]` when `k in model`, `None` otherwise. -/
def findVal : Table → Key → Option (List Char)
  | [], _ => none
  | (k', v) :: rest, k => if k' = k then some v else findVal rest k

/-- Python `k in model`. -/
def containsK (tbl : Table) (k : Key) : Bool :=
  (findVal tbl k).isSome

/-- Python `model.get(k, [])` (no mutation). -/
def lookupD (tbl : Table) (k : Key) : List Char :=
  (findVal tbl k).getD []

/-- Python `model[k]` on a `defaultdict(list)`: returns the stored list
when the key is present; otherwise inserts the key with an empty list
(at the end, preserving insertion order) and returns the empty list.
The second component is the table after the access. -/
def getItem (tbl : Table) (k : Key) : List Char × Table :=
  match findVal tbl k with
  | some v => (v, tbl)
  | none => ([], tbl ++ [(k, [])])

/-- Python `model[k].append(c)` on a `defaultdict(list)`: appends `c` to
the list stored at `k`, creating the entry (at the end) if absent. -/
def appendChar : Table → Key → Char → Table
  | [], k, c => [(k, [c])]
  | (k', v) :: rest, k, c =>
      if k' = k then (k', v ++ [c]) :: rest else (k', v) :: appendChar rest k c

/-- Python `list(model.keys())` (insertion order). -/
def keysOf (tbl : Table) : List Key := tbl.map (·.1)

/-! ## Text normalization -/

/-- The whitespace characters recognized by Python's `str.strip()` and by
the regular expression class `\s` (restricted to the ASCII range; the
claims and the training corpora of the repository only involve ASCII). -/
def isPyWS (c : Char) : Bool :=
  c = ' ' || c = '\t' || c = '\n' || c = '\r' || c = '\x0b' || c = '\x0c'

/-- Removes trailing whitespace (the right half of Python `str.strip()`). -/
def dropTrailWS : List Char → List Char
  | [] => []
  | c :: rest =>
      let r := dropTrailWS rest
      if r.isEmpty && isPyWS c then [] else c :: r

/-- Python `str.strip()`: removes leading and trailing whitespace. -/
def stripWS (l : List Char) : List Char :=
  dropTrailWS (l.dropWhile isPyWS)

theorem dropWhile_len_le (p : Char → Bool) :
    ∀ l : List Char, (l.dropWhile p).length ≤ l.length := by
  intro l
  induction l with
  | nil => simp
  | cons c rest ih =>
      by_cases h : p c
      · rw [List.dropWhile_cons, if_pos h]
        exact Nat.le_trans ih (by simp)
      · rw [List.dropWhile_cons, if_neg h]

/-- Helper for `collapseWS`: the flag records whether the scanner is
inside a whitespace run whose single replacement space has already been
emitted. -/
def colAux : Bool → List Char → List Char
  | _, [] => []
  | b, c :: rest =>
      if isPyWS c then
        if b then colAux true rest else ' ' :: colAux true rest
      else c :: colAux false rest

/-- Python `re.sub(r"\s+", " ", text)`: replaces every maximal run of
whitespace characters with a single ASCII space. -/
def collapseWS (l : List Char) : List Char := colAux false l

/-- m-cc3.py `_normalize_text`: `text.lower()`, then the single-character
replacements `\n`, `\t`, `\r` → space, then `str.strip()`.  (Runs of
whitespace are NOT collapsed.) -/
def normalize_cc3 (l : List Char) : List Char :=
  stripWS ((l.map Char.toLower).map fun c =>
    if c = '\n' then ' ' else if c = '\t' then ' ' else if c = '\r' then ' ' else c)

/-- m-cc2-2.py train, line 71: `re.sub(r"\s+", " ", text.lower().strip())`:
lowercase, strip, then collapse whitespace runs to single spaces. -/
def normalize_cc22 (l : List Char) : List Char :=
  collapseWS (stripWS (l.map Char.toLower))

/-- Modelled from the spec's words (section 4.1), for comparison with the
source normalizers: "Lowercases all characters; collapses every maximal
run of whitespace (including newlines, tabs, carriage returns) into a
single ASCII space; trims leading/trailing whitespace." -/
def normalizeSpec (l : List Char) : List Char :=
  stripWS (collapseWS (l.map Char.toLower))

/-! ## Training -/

/-- Python `text[i : i+n]`. -/
def pySlice (t : List Char) (i n : Nat) : List Char := (t.drop i).take n

/-- The training loop shared by all variants:
`for i in range(len(text) - n): model[text[i:i+n]].append(text[i+n])`.
(The default character of `getD` is never reached: every index produced
by the range is in bounds.) -/
def buildTable (n : Nat) (tbl : Table) (t : List Char) : Table :=
  (List.range (t.length - n)).foldl
    (fun tb i => appendChar tb (pySlice t i n) (t.getD (i + n) ' ')) tbl

/-- m-cc3.py `train(text, min_transitions)`: raises `ValueError` when the
raw text is empty, normalizes, raises when the normalized length is below
`n + min_transitions`, and otherwise runs the training loop on the
normalized text. -/
def train_cc3 (n minT : Nat) (tbl : Table) (text : List Char) :
    Except Unit Table :=
  if text = [] then .error ()
  else
    let t := normalize_cc3 text
    if t.length < n + minT then .error ()
    else .ok (buildTable n tbl t)

/-- m-cc2-2.py `train(text)`: raises `ValueError` when the raw text is
empty or the RAW text length is below `n`; otherwise normalizes and runs
the training loop on the normalized text.  (There is no
`min_transitions` parameter, and the length check precedes
normalization.) -/
def train_cc22 (n : Nat) (tbl : Table) (text : List Char) :
    Except Unit Table :=
  if text = [] then .error ()
  else if text.length < n then .error ()
  else .ok (buildTable n tbl (normalize_cc22 text))

/-! ## Characterization of training (claim C1) -/

/-- The successors contributed for key `k` by one training pass over `t`,
listed in increasing order of the start index `i`. -/
def newSuccs (t : List Char) (n : Nat) (k : Key) : List Char :=
  (List.range (t.length - n)).filterMap fun i =>
    if pySlice t i n = k then some (t.getD (i + n) ' ') else none

/-- Extending a per-key lookup result by a batch of appended successors:
an existing entry is extended in place, a missing entry is created
exactly when at least one successor is appended. -/
def mergeFind : Option (List Char) → List Char → Option (List Char)
  | some v, ns => some (v ++ ns)
  | none, ns => if ns = [] then none else some ns

theorem mergeFind_nil (o : Option (List Char)) : mergeFind o [] = o := by
  cases o <;> simp [mergeFind]

theorem findVal_appendChar (tbl : Table) (κ : Key) (c : Char) (k : Key) :
    findVal (appendChar tbl κ c) k
      = mergeFind (findVal tbl k) (if κ = k then [c] else []) := by
  induction tbl with
  | nil =>
      by_cases h : κ = k
      · simp [appendChar, findVal, mergeFind, h]
      · simp [appendChar, findVal, mergeFind, h]
  | cons kv rest ih =>
      obtain ⟨k', v⟩ := kv
      by_cases h1 : k' = κ
      · subst h1
        by_cases h2 : k' = k
        · subst h2
          simp [appendChar, findVal, mergeFind]
        · simp only [appendChar, if_pos rfl, findVal, if_neg h2, h2, if_false]
          exact (mergeFind_nil _).symm
      · by_cases h2 : k' = k
        · subst h2
          have hκ : ¬ κ = k' := fun h => h1 h.symm
          simp only [appendChar, if_neg h1, findVal, if_pos rfl, if_neg hκ]
          exact (mergeFind_nil _).symm
        · simp only [appendChar, if_neg h1, findVal, if_neg h2]
          exact ih

theorem mergeFind_assoc (o : Option (List Char)) (a b : List Char) :
    mergeFind (mergeFind o a) b = mergeFind o (a ++ b) := by
  cases o with
  | some v => simp [mergeFind]
  | none =>
      by_cases ha : a = []
      · subst ha; simp [mergeFind]
      · by_cases hb : b = [] <;> simp [mergeFind, ha, hb]

theorem findVal_foldl_appendChar (t : List Char) (n : Nat) (k : Key) :
    ∀ (is : List Nat) (tbl : Table),
      findVal (is.foldl
          (fun tb i => appendChar tb (pySlice t i n) (t.getD (i + n) ' ')) tbl) k
        = mergeFind (findVal tbl k)
            (is.filterMap fun i =>
              if pySlice t i n = k then some (t.getD (i + n) ' ') else none) := by
  intro is
  induction is with
  | nil => intro tbl; simp [mergeFind_nil]
  | cons i rest ih =>
      intro tbl
      simp only [List.foldl_cons, List.filterMap_cons]
      rw [ih, findVal_appendChar]
      by_cases h : pySlice t i n = k
      · simp [h, mergeFind_assoc]
      · simp [h, mergeFind_nil]

theorem buildTable_find (n : Nat) (tbl : Table) (t : List Char) (k : Key) :
    findVal (buildTable n tbl t) k
      = mergeFind (findVal tbl k) (newSuccs t n k) := by
  unfold buildTable newSuccs
  exact findVal_foldl_appendChar t n k (List.range (t.length - n)) tbl

/-- C1: for every model and every text accepted by training, the table
after the call is the table before, extended per key by the successors
`t[i+n]` of every window `t[i:i+n]` of the normalized text, appended in
increasing order of `i`, with entries created when absent and no entry
removed.  This holds for the m-cc3 variant (with its `min_transitions`
guard) and for the m-cc2-2 variant alike. -/
theorem c1_train_extends (n minT : Nat) (tbl : Table) (text : List Char) :
    (∀ tbl', train_cc3 n minT tbl text = .ok tbl' →
      ∀ k, findVal tbl' k
        = mergeFind (findVal tbl k) (newSuccs (normalize_cc3 text) n k)) ∧
    (∀ tbl', train_cc22 n tbl text = .ok tbl' →
      ∀ k, findVal tbl' k
        = mergeFind (findVal tbl k) (newSuccs (normalize_cc22 text) n k)) := by
  constructor
  · intro tbl' h k
    unfold train_cc3 at h
    by_cases h1 : text = []
    · simp [h1] at h
    · simp only [h1, if_false] at h
      by_cases h2 : (normalize_cc3 text).length < n + minT
      · simp [h2] at h
      · simp only [h2, if_false, Except.ok.injEq] at h
        subst h
        exact buildTable_find n tbl (normalize_cc3 text) k
  · intro tbl' h k
    unfold train_cc22 at h
    by_cases h1 : text = []
    · simp [h1] at h
    · simp only [h1, if_false] at h
      by_cases h2 : text.length < n
      · simp [h2] at h
      · simp only [h2, if_false, Except.ok.injEq] at h
        subst h
        exact buildTable_find n tbl (normalize_cc22 text) k

/-- Concrete run of C1: training an empty model on "abcd" with n = 2
produces the key "ab" with successor list "c". -/
theorem c1_train_extends_witness :
    train_cc3 2 0 [] ['a', 'b', 'c', 'd'] = .ok
        [(['a', 'b'], ['c']), (['b', 'c'], ['d'])] ∧
      findVal [(['a', 'b'], ['c']), (['b', 'c'], ['d'])] ['a', 'b']
        = mergeFind (findVal [] ['a', 'b'])
            (newSuccs (normalize_cc3 ['a', 'b', 'c', 'd']) 2 ['a', 'b']) := by
  refine ⟨rfl, ?_⟩
  exact (c1_train_extends 2 0 [] ['a', 'b', 'c', 'd']).1
    [(['a', 'b'], ['c']), (['b', 'c'], ['d'])] rfl ['a', 'b']

/-! ## Training validation (claim C7) -/

/-- C7 counterexample: m-cc2-2's `train` checks the RAW text length
against `n` before normalizing, so a text whose normalized length falls
below `n` is accepted and training succeeds as a no-op, where the claim
demands an `InvalidArgument` failure.  Here `n = 4` and the text
"a \t\n b" has raw length 6 but normalizes to "a b" of length 3. -/
theorem c7_train_validation_counterexample :
    train_cc22 4 [] ['a', ' ', '\t', '\n', ' ', 'b'] = .ok [] ∧
      (normalize_cc22 ['a', ' ', '\t', '\n', ' ', 'b']).length < 4 := by
  exact ⟨rfl, by decide⟩

/-- C7 amended: the claimed validation behaviour does hold for m-cc3's
`train` whenever `n + min_transitions >= 1`: training fails (raising
before any mutation of the table) exactly when the text is empty after
normalization or the normalized length is below `n + min_transitions`,
and succeeds on every text meeting both conditions. -/
theorem c7_train_validation_amended (n minT : Nat) (tbl : Table)
    (text : List Char) (h : 1 ≤ n + minT) :
    (∃ tbl', train_cc3 n minT tbl text = .ok tbl') ↔
      (normalize_cc3 text ≠ [] ∧ n + minT ≤ (normalize_cc3 text).length) := by
  unfold train_cc3
  by_cases h1 : text = []
  · subst h1
    simp [normalize_cc3, stripWS, dropTrailWS]
  · simp only [h1, if_false]
    by_cases h2 : (normalize_cc3 text).length < n + minT
    · simp only [h2, if_true]
      constructor
      · rintro ⟨tbl', htbl⟩
        cases htbl
      · intro hc
        omega
    · simp only [h2, if_false]
      constructor
      · intro _
        have hlen : n + minT ≤ (normalize_cc3 text).length := Nat.le_of_not_lt h2
        refine ⟨?_, hlen⟩
        intro hnil
        rw [hnil] at hlen
        simp only [List.length_nil] at hlen
        omega
      · intro _
        exact ⟨_, rfl⟩

/-- Concrete run of the amended C7: training on "abc" with n = 2,
min_transitions = 0 succeeds. -/
theorem c7_train_validation_amended_witness :
    ∃ tbl', train_cc3 2 0 [] ['a', 'b', 'c'] = .ok tbl' :=
  (c7_train_validation_amended 2 0 [] ['a', 'b', 'c'] (by decide)).mpr
    ⟨by decide, by decide⟩

/-! ## Normalization (claim C8)

The claim describes run-collapsing normalization.  m-cc2-2 implements it
(lowercase, strip, collapse); m-cc3's `_normalize_text` only replaces
single newline/tab/CR characters and trims, leaving runs of spaces
intact.  Below we refute the claim on m-cc3 and prove that m-cc2-2's
normalizer agrees exactly with the spec-described one. -/


theorem dropTrailWS_cons (c : Char) (rest : List Char) :
    dropTrailWS (c :: rest)
      = if (dropTrailWS rest).isEmpty && isPyWS c then []
        else c :: dropTrailWS rest := rfl

theorem dropWhile_ws_idem (l : List Char) :
    (l.dropWhile isPyWS).dropWhile isPyWS = l.dropWhile isPyWS := by
  induction l with
  | nil => rfl
  | cons c rest ih =>
      by_cases h : isPyWS c
      · rw [List.dropWhile_cons, if_pos h, ih]
      · rw [List.dropWhile_cons, if_neg h, List.dropWhile_cons, if_neg h]

theorem colAux_nil (b : Bool) : colAux b [] = [] := rfl

theorem colAux_cons (b : Bool) (c : Char) (rest : List Char) :
    colAux b (c :: rest)
      = if isPyWS c then
          (if b then colAux true rest else ' ' :: colAux true rest)
        else c :: colAux false rest := rfl

theorem dropTrailWS_eq_nil_iff (l : List Char) :
    dropTrailWS l = [] ↔ ∀ c ∈ l, isPyWS c := by
  induction l with
  | nil => simp [dropTrailWS]
  | cons c rest ih =>
      rw [dropTrailWS_cons]
      by_cases hr : dropTrailWS rest = []
      · by_cases hc : isPyWS c
        · simp only [hr, List.isEmpty_nil, hc, Bool.and_self, if_true, true_iff]
          intro x hx
          rcases List.mem_cons.mp hx with hx | hx
          · subst hx; exact hc
          · exact (ih.mp hr) x hx
        · have hc' : isPyWS c = false := by
            cases h : isPyWS c
            · rfl
            · exact absurd h hc
          simp only [hr, List.isEmpty_nil, hc', Bool.and_false, Bool.false_eq_true,
            if_false, List.cons_ne_nil, false_iff]
          intro hall
          exact hc (hall c (List.mem_cons_self c rest))
      · have hne : (dropTrailWS rest).isEmpty = false := by
          cases hdt : dropTrailWS rest with
          | nil => exact absurd hdt hr
          | cons a b => rfl
        simp only [hne, Bool.false_and, Bool.false_eq_true, if_false,
          List.cons_ne_nil, false_iff]
        intro hall
        exact hr (ih.mpr fun x hx => hall x (List.mem_cons_of_mem c hx))

theorem allWS_dropWhile_iff (l : List Char) :
    (∀ c ∈ l.dropWhile isPyWS, isPyWS c) ↔ (∀ c ∈ l, isPyWS c) := by
  induction l with
  | nil => simp
  | cons c rest ih =>
      by_cases h : isPyWS c
      · rw [List.dropWhile_cons, if_pos h, ih]
        constructor
        · intro hall x hx
          rcases List.mem_cons.mp hx with hx | hx
          · subst hx; exact h
          · exact hall x hx
        · intro hall x hx
          exact hall x (List.mem_cons_of_mem c hx)
      · rw [List.dropWhile_cons, if_neg h]

theorem colAux_allWS_iff (b : Bool) (l : List Char) :
    (∀ c ∈ colAux b l, isPyWS c) ↔ (∀ c ∈ l, isPyWS c) := by
  induction l generalizing b with
  | nil => simp [colAux_nil]
  | cons c rest ih =>
      by_cases h : isPyWS c
      · cases b with
        | true =>
            rw [colAux_cons, if_pos h, if_pos rfl, ih]
            constructor
            · intro hall x hx
              rcases List.mem_cons.mp hx with hx | hx
              · subst hx; exact h
              · exact hall x hx
            · intro hall x hx
              exact hall x (List.mem_cons_of_mem c hx)
        | false =>
            rw [colAux_cons, if_pos h, if_neg (by simp)]
            constructor
            · intro hall x hx
              rcases List.mem_cons.mp hx with hx | hx
              · subst hx; exact h
              · exact (ih true).mp
                  (fun d hd => hall d (List.mem_cons_of_mem ' ' hd)) x hx
            · intro hall x hx
              rcases List.mem_cons.mp hx with hx | hx
              · subst hx; decide
              · exact (ih true).mpr
                  (fun d hd => hall d (List.mem_cons_of_mem c hd)) x hx
      · rw [colAux_cons, if_neg h]
        constructor
        · intro hall x hx
          rcases List.mem_cons.mp hx with hx | hx
          · exact absurd (hall c (List.mem_cons_self _ _)) h
          · exact (ih false).mp
              (fun d hd => hall d (List.mem_cons_of_mem c hd)) x hx
        · intro hall
          exact absurd (hall c (List.mem_cons_self c rest)) h

theorem colAux_true_eq (l : List Char) :
    colAux true l = colAux false (l.dropWhile isPyWS) := by
  induction l with
  | nil => rfl
  | cons c rest ih =>
      by_cases h : isPyWS c
      · rw [colAux_cons, if_pos h, if_pos rfl, ih, List.dropWhile_cons, if_pos h]
      · rw [colAux_cons, if_neg h, List.dropWhile_cons, if_neg h,
          colAux_cons, if_neg h]

theorem dropTrail_dropWhile_comm (t : List Char) :
    (dropTrailWS t).dropWhile isPyWS = dropTrailWS (t.dropWhile isPyWS) := by
  induction t with
  | nil => rfl
  | cons c rest ih =>
      by_cases hc : isPyWS c
      · by_cases hr : dropTrailWS rest = []
        · have hall := (dropTrailWS_eq_nil_iff rest).mp hr
          have hdwl : rest.dropWhile isPyWS = [] :=
            List.dropWhile_eq_nil_iff.mpr hall
          rw [dropTrailWS_cons, hr]
          simp only [List.isEmpty_nil, hc, Bool.and_self, if_true]
          rw [List.dropWhile_cons, if_pos hc, hdwl]
          rfl
        · have hne : (dropTrailWS rest).isEmpty = false := by
            cases hdt : dropTrailWS rest with
            | nil => exact absurd hdt hr
            | cons a b => rfl
          rw [dropTrailWS_cons]
          simp only [hne, Bool.false_and, Bool.false_eq_true, if_false]
          rw [List.dropWhile_cons, if_pos hc, List.dropWhile_cons, if_pos hc]
          exact ih
      · have hcf : isPyWS c = false := by
          cases h : isPyWS c
          · rfl
          · exact absurd h hc
        rw [dropTrailWS_cons]
        simp only [hcf, Bool.and_false, Bool.false_eq_true, if_false]
        rw [List.dropWhile_cons, if_neg hc, List.dropWhile_cons, if_neg hc,
          dropTrailWS_cons]
        simp only [hcf, Bool.and_false, Bool.false_eq_true, if_false]

theorem colAux_dropWhile_comm (t : List Char) :
    colAux false (t.dropWhile isPyWS) = (colAux false t).dropWhile isPyWS := by
  induction t with
  | nil => rfl
  | cons c rest ih =>
      by_cases hc : isPyWS c
      · rw [List.dropWhile_cons, if_pos hc, colAux_cons, if_pos hc,
          if_neg (by simp), List.dropWhile_cons, if_pos (by decide),
          colAux_true_eq, ih, dropWhile_ws_idem]
      · rw [List.dropWhile_cons, if_neg hc, colAux_cons, if_neg hc,
          List.dropWhile_cons, if_neg hc]

theorem colAux_dropTrail_comm (t : List Char) :
    colAux false (dropTrailWS t) = dropTrailWS (colAux false t) := by
  match t with
  | [] => rfl
  | c :: rest =>
      by_cases hc : isPyWS c
      · by_cases hr : dropTrailWS rest = []
        · have hall := (dropTrailWS_eq_nil_iff rest).mp hr
          have hdwl : rest.dropWhile isPyWS = [] :=
            List.dropWhile_eq_nil_iff.mpr hall
          rw [dropTrailWS_cons, hr]
          simp only [List.isEmpty_nil, hc, Bool.and_self, if_true]
          rw [colAux_cons, if_pos hc, if_neg (by simp), colAux_true_eq, hdwl]
          rfl
        · have hne : (dropTrailWS rest).isEmpty = false := by
            cases hdt : dropTrailWS rest with
            | nil => exact absurd hdt hr
            | cons a b => rfl
          have hX : dropTrailWS (colAux false (rest.dropWhile isPyWS)) ≠ [] := by
            intro hnil
            have h1 := (dropTrailWS_eq_nil_iff _).mp hnil
            have h2 := (colAux_allWS_iff false (rest.dropWhile isPyWS)).mp h1
            have h3 := (allWS_dropWhile_iff rest).mp h2
            exact hr ((dropTrailWS_eq_nil_iff rest).mpr h3)
          have hXne : (dropTrailWS (colAux false (rest.dropWhile isPyWS))).isEmpty
              = false := by
            cases hdt : dropTrailWS (colAux false (rest.dropWhile isPyWS)) with
            | nil => exact absurd hdt hX
            | cons a b => rfl
          rw [dropTrailWS_cons]
          simp only [hne, Bool.false_and, Bool.false_eq_true, if_false]
          rw [colAux_cons, if_pos hc, if_neg (by simp), colAux_true_eq,
            dropTrail_dropWhile_comm,
            colAux_dropTrail_comm (rest.dropWhile isPyWS),
            colAux_cons, if_pos hc, if_neg (by simp), colAux_true_eq,
            dropTrailWS_cons]
          simp only [hXne, Bool.false_and, Bool.false_eq_true, if_false]
      · have hcf : isPyWS c = false := by
          cases h : isPyWS c
          · rfl
          · exact absurd h hc
        rw [dropTrailWS_cons]
        simp only [hcf, Bool.and_false, Bool.false_eq_true, if_false]
        rw [colAux_cons, if_neg hc, colAux_dropTrail_comm rest,
          colAux_cons, if_neg hc, dropTrailWS_cons]
        simp only [hcf, Bool.and_false, Bool.false_eq_true, if_false]
termination_by t.length
decreasing_by
  · simp only [List.length_cons]
    exact Nat.lt_succ_of_le (dropWhile_len_le _ _)
  · simp

/-- C8 counterexample: m-cc3's `_normalize_text` does not collapse runs
of whitespace: on "A  B" it returns "a  b" (two spaces preserved), while
the claimed normalization returns "a b". -/
theorem c8_normalize_counterexample :
    normalize_cc3 ['A', ' ', ' ', 'B'] = ['a', ' ', ' ', 'b'] ∧
      normalizeSpec ['A', ' ', ' ', 'B'] = ['a', ' ', 'b'] ∧
      normalize_cc3 ['A', ' ', ' ', 'B'] ≠ normalizeSpec ['A', ' ', ' ', 'B'] :=
  ⟨by decide, by decide, by decide⟩

/-- C8 amended: the claimed normalization (lowercase, collapse every
maximal whitespace run to one ASCII space, trim the ends — and a pure
function) is implemented exactly by the inline normalization of
m-cc2-2's `train`; m-cc3's `_normalize_text` only maps newline, tab and
carriage return to single spaces and trims, leaving whitespace runs
uncollapsed. -/
theorem c8_normalize_amended (l : List Char) :
    normalize_cc22 l = normalizeSpec l := by
  unfold normalize_cc22 normalizeSpec collapseWS stripWS
  rw [colAux_dropTrail_comm, colAux_dropWhile_comm]

/-! ## Generation

Random draws are modelled by an oracle stream `s : Nat → Nat` and a
running position: the draw at position `pos` selects index
`s pos % seq.length` and advances the position.  The table is threaded
through every dict access so that the `defaultdict` insertion behaviour
of `model[k]` is visible in the embedding. -/

inductive GenError where
  /-- RuntimeError raised when the model dict is empty. -/
  | untrained
  /-- m-cc2-2 generate: in the fallback branch, when a usable key is
  found by the retry loop, `output.append(next_char)` reads `next_char`
  from an earlier iteration; when no earlier iteration assigned it, the
  Python code raises NameError. -/
  | nameError
  /-- m-cc2.py generate: `random.choice(self.model[seed])` on an empty
  successor list raises IndexError, which is not caught. -/
  | emptyChoice
deriving DecidableEq, Repr

/-- m-cc2-2 generate, lines 109-112: the fallback retry loop.  Up to
`fuel` times: draw a random key from `list(model.keys())`; stop (found)
when the drawn key has a non-empty successor list.  The key carried out
is the last drawn key (or the incoming window when `fuel = 0`).  The
`model[seed]` access in the loop condition is guarded by
`seed in self.model`, which is always true for a drawn key. -/
def fbLoop (s : Nat → Nat) : Nat → Key → Table → Nat → Bool × Key × Table × Nat
  | 0, seed, tbl, pos => (false, seed, tbl, pos)
  | f + 1, _, tbl, pos =>
      let ks := keysOf tbl
      let k := ks.getD (s pos % ks.length) []
      if containsK tbl k then
        let vt := getItem tbl k
        if vt.1.isEmpty then fbLoop s f k vt.2 (pos + 1)
        else (true, k, vt.2, pos + 1)
      else fbLoop s f k tbl (pos + 1)

/-- m-cc2-2 generate, lines 102-116: the step loop.  `lastC` is the
current value of the Python variable `next_char` (`none` when it has
never been assigned).  In the successful-fallback branch the appended
character is the stale `lastC`, not a successor of the drawn key. -/
def stepLoop22 (maxA : Nat) (fb : Char) (s : Nat → Nat) :
    Nat → Key → Option Char → List Char → Table → Nat →
      Except GenError (List Char) × Table × Nat
  | 0, _, _, out, tbl, pos => (.ok out, tbl, pos)
  | fuel + 1, seed, lastC, out, tbl, pos =>
      let hit := containsK tbl seed
      let vt := if hit then getItem tbl seed else ([], tbl)
      if hit && !vt.1.isEmpty then
        let c := vt.1.getD (s pos % vt.1.length) ' '
        stepLoop22 maxA fb s fuel (seed.drop 1 ++ [c]) (some c) (out ++ [c])
          vt.2 (pos + 1)
      else
        let r := fbLoop s maxA seed vt.2 pos
        match r.1, lastC with
        | true, none => (.error .nameError, r.2.2.1, r.2.2.2)
        | true, some c =>
            stepLoop22 maxA fb s fuel (r.2.1.drop 1 ++ [c]) (some c)
              (out ++ [c]) r.2.2.1 r.2.2.2
        | false, _ =>
            stepLoop22 maxA fb s fuel (r.2.1.drop 1 ++ [fb]) (some fb)
              (out ++ [fb]) r.2.2.1 r.2.2.2

/-- m-cc2-2.py `generate(length, max_attempts)`: raises when the model
dict is empty; otherwise draws the start key from ALL keys of the model,
runs the step loop `length - n` times and truncates the joined buffer to
`length` characters. -/
def generate_cc22 (n len maxA : Nat) (fb : Char) (tbl : Table)
    (s : Nat → Nat) : Except GenError (List Char) × Table × Nat :=
  if tbl.isEmpty then (.error .untrained, tbl, 0)
  else
    let ks := keysOf tbl
    let seed := ks.getD (s 0 % ks.length) []
    let r := stepLoop22 maxA fb s (len - n) seed none seed tbl 1
    (r.1.map (fun out => out.take len), r.2.1, r.2.2)

/-- m-cc3 generate, line 81: the candidate list
`[k for k in self.model.keys() if len(self.model[k]) > 0]`; every
`self.model[k]` is a `defaultdict.__getitem__` on a present key, so the
table is threaded through the comprehension. -/
def nonEmptyKeysT (tbl : Table) : List Key × Table :=
  (keysOf tbl).foldl
    (fun acc k =>
      let vt := getItem acc.2 k
      (if vt.1.length > 0 then acc.1 ++ [k] else acc.1, vt.2))
    ([], tbl)

/-- The candidate list without threading, for stating properties: the
keys whose looked-up successor list is non-empty. -/
def nonEmptyKeys (tbl : Table) : List Key :=
  (keysOf tbl).filter (fun k => !(lookupD tbl k).isEmpty)

/-- Python `seed[-n:]`: the last `n` characters, except that `-0` is `0`
so `seed[-0:]` is the whole string. -/
def pyLastN (n : Nat) (l : List Char) : List Char :=
  if n = 0 then l else l.drop (l.length - n)

/-- m-cc3 generate, lines 84-90: the step loop; the window lookup uses
`self.model.get(seed[-self.n:], [])`, which never mutates the dict, and
the loop breaks at a dead end. -/
def stepLoop3 (n : Nat) (tbl : Table) (s : Nat → Nat) :
    Nat → Key → List Char → Nat → List Char × Nat
  | 0, _, out, pos => (out, pos)
  | fuel + 1, seed, out, pos =>
      let poss := lookupD tbl (pyLastN n seed)
      if poss.isEmpty then (out, pos)
      else
        let c := poss.getD (s pos % poss.length) ' '
        stepLoop3 n tbl s fuel (seed.drop 1 ++ [c]) (out ++ [c]) (pos + 1)

/-- One try-protected attempt of m-cc3 generate (lines 80-95 without the
acceptance check): `random.choice` on an empty candidate list raises
IndexError, which the `except` swallows (`none`); it consumes no random
draw.  Otherwise the start key is drawn from the non-empty-successor
candidates and the step loop runs. -/
def attempt_cc3 (n len : Nat) (tbl : Table) (s : Nat → Nat) (pos : Nat) :
    Option (List Char) × Table × Nat :=
  let ct := nonEmptyKeysT tbl
  if ct.1.isEmpty then (none, ct.2, pos)
  else
    let seed := ct.1.getD (s pos % ct.1.length) []
    let r := stepLoop3 n ct.2 s (len - n) seed seed (pos + 1)
    (some r.1, ct.2, r.2)

/-- m-cc3 generate, lines 79-101: the attempt loop.  An attempt whose
buffer reaches 80 percent of `length` is returned immediately (joined,
NOT truncated); otherwise the next attempt starts; exhaustion yields
`None`.  The Python comparison `len(output) >= length * 0.8` is embedded
as `5 * len(output) >= 4 * length`: for every length below 2^50 the
double `length * 0.8` rounds to a value whose integer threshold is
exactly `ceil(4 * length / 5)`, so the two comparisons agree. -/
def attemptsLoop3 (n len : Nat) (s : Nat → Nat) :
    Nat → Table → Nat → Except GenError (Option (List Char)) × Table × Nat
  | 0, tbl, pos => (.ok none, tbl, pos)
  | a + 1, tbl, pos =>
      let r := attempt_cc3 n len tbl s pos
      match r.1 with
      | some out =>
          if 5 * out.length ≥ 4 * len then (.ok (some out), r.2.1, r.2.2)
          else attemptsLoop3 n len s a r.2.1 r.2.2
      | none => attemptsLoop3 n len s a r.2.1 r.2.2

/-- m-cc3.py `generate(length, max_attempts)`: raises only when the model
dict is empty; returns `none` (Python `None`) when every attempt fails. -/
def generate_cc3 (n len maxA : Nat) (tbl : Table) (s : Nat → Nat) :
    Except GenError (Option (List Char)) × Table × Nat :=
  if tbl.isEmpty then (.error .untrained, tbl, 0)
  else attemptsLoop3 n len s maxA tbl 0

/-- m-cc2.py generate, lines 52-66: the step loop checks only
`seed in self.model` (not emptiness), so `random.choice` on an empty
successor list raises IndexError uncaught; a missing key breaks the
loop. -/
def stepLoop2 (s : Nat → Nat) :
    Nat → Key → List Char → Table → Nat →
      Except GenError (List Char) × Table × Nat
  | 0, _, out, tbl, pos => (.ok out, tbl, pos)
  | fuel + 1, seed, out, tbl, pos =>
      if containsK tbl seed then
        let vt := getItem tbl seed
        if vt.1.isEmpty then (.error .emptyChoice, vt.2, pos)
        else
          let c := vt.1.getD (s pos % vt.1.length) ' '
          stepLoop2 s fuel (seed.drop 1 ++ [c]) (out ++ [c]) vt.2 (pos + 1)
      else (.ok out, tbl, pos)

/-- m-cc2.py `generate(length)`: start key from all keys, step loop with
break on missing key, joined buffer returned WITHOUT truncation. -/
def generate_cc2 (n len : Nat) (tbl : Table) (s : Nat → Nat) :
    Except GenError (List Char) × Table × Nat :=
  if tbl.isEmpty then (.error .untrained, tbl, 0)
  else
    let ks := keysOf tbl
    let seed := ks.getD (s 0 % ks.length) []
    stepLoop2 s (len - n) seed seed tbl 1

/-! ## Fallback behaviour (claim C3) and untrained / seed selection (claim C4) -/

/-- C3 (code defect, m-cc2-2): at a dead end the fallback loop draws
fresh keys, but when it finds one with non-empty successors the appended
character is the STALE `next_char` of an earlier iteration, not a
character produced from the found key's successor list — and when no
earlier iteration assigned `next_char`, the access raises NameError.
First run (n=2, model ab→"c", zz→"q"): after "abc" the window "bc" is a
dead end, the fallback finds "zz", yet 'c' (the stale `next_char`) is
appended although "zz"'s successors are exactly "q".  Second run: the
start key "ab" has an empty successor list, the first step is a dead end,
the fallback finds "cd", and `next_char` was never assigned: NameError. -/
theorem c3_fallback_stale_char :
    (generate_cc22 2 5 1 ' ' [(['a','b'],['c']), (['z','z'],['q'])]
        (fun i => if i ≤ 1 then 0 else 1)).1 = .ok ['a','b','c','c','c'] ∧
      findVal [(['a','b'],['c']), (['z','z'],['q'])] ['z','z'] = some ['q'] ∧
      ('c' : Char) ∉ (['q'] : List Char) ∧
      (generate_cc22 2 3 1 ' ' [(['a','b'],[]), (['c','d'],['e'])]
        (fun i => if i = 0 then 0 else 1)).1 = .error .nameError :=
  ⟨rfl, rfl, by decide, rfl⟩

/-- C4 counterexample.  Part 1 (m-cc3): a non-empty table whose every
successor list is empty does NOT raise the untrained error — the
attempt-level IndexError is swallowed and generate returns `None` — so
"raises iff table empty or all successor lists empty" fails right to
left.  Part 2 (m-cc2-2): the start key is drawn from ALL keys, not from
the keys with non-empty successors: with fallback budget 0 the returned
string "ab " starts with the empty-successor key "ab". -/
theorem c4_untrained_counterexample :
    (generate_cc3 2 5 3 [(['a','b'], [])] (fun _ => 0)).1 = .ok none ∧
      ([(['a','b'], ([] : List Char))] : Table) ≠ [] ∧
      (∀ kv ∈ ([(['a','b'], ([] : List Char))] : Table), kv.2 = []) ∧
      (generate_cc22 2 3 0 ' ' [(['a','b'],[]), (['c','d'],['e'])]
        (fun _ => 0)).1 = .ok ['a','b',' '] ∧
      findVal [(['a','b'],[]), (['c','d'],['e'])] ['a','b'] = some [] :=
  ⟨rfl, by decide, by decide, rfl, rfl⟩

/-! ## Table preservation during generation (claim C10) and lengths (C2) -/

theorem getItem_present {tbl : Table} {k : Key} {v : List Char}
    (h : findVal tbl k = some v) : getItem tbl k = (v, tbl) := by
  unfold getItem
  rw [h]

theorem getItem_snd_of_contains {tbl : Table} {k : Key}
    (h : containsK tbl k = true) : (getItem tbl k).2 = tbl := by
  obtain ⟨v, hv⟩ := Option.isSome_iff_exists.mp h
  rw [getItem_present hv]

theorem containsK_of_mem_keys {tbl : Table} {k : Key}
    (h : k ∈ keysOf tbl) : containsK tbl k = true := by
  induction tbl with
  | nil => simp [keysOf] at h
  | cons kv rest ih =>
      obtain ⟨k', v⟩ := kv
      by_cases hk : k' = k
      · simp [containsK, findVal, hk]
      · rcases List.mem_cons.mp h with h1 | h1
        · exact absurd h1.symm hk
        · have := ih h1
          simp only [containsK, findVal, hk, if_false]
          exact this

theorem getD_mem_of_lt {l : List Key} {i : Nat} (d : Key)
    (h : i < l.length) : l.getD i d ∈ l := by
  rw [List.getD_eq_getElem?_getD, List.getElem?_eq_getElem h]
  exact List.getElem_mem h

theorem fbLoop_tbl (s : Nat → Nat) :
    ∀ (f : Nat) (seed : Key) (tbl : Table) (pos : Nat),
      (fbLoop s f seed tbl pos).2.2.1 = tbl := by
  intro f
  induction f with
  | zero => intro seed tbl pos; rfl
  | succ f ih =>
      intro seed tbl pos
      simp only [fbLoop]
      split
      · next hc =>
          obtain ⟨v, hv⟩ := Option.isSome_iff_exists.mp hc
          rw [getItem_present hv]
          split
          · exact ih _ _ _
          · rfl
      · exact ih _ _ _

theorem stepLoop22_tbl (maxA : Nat) (fb : Char) (s : Nat → Nat) :
    ∀ (fuel : Nat) (seed : Key) (lastC : Option Char) (out : List Char)
      (tbl : Table) (pos : Nat),
      (stepLoop22 maxA fb s fuel seed lastC out tbl pos).2.1 = tbl := by
  intro fuel
  induction fuel with
  | zero => intro seed lastC out tbl pos; rfl
  | succ fuel ih =>
      intro seed lastC out tbl pos
      simp only [stepLoop22]
      by_cases hcc : containsK tbl seed = true
      · rw [if_pos hcc]
        obtain ⟨v, hv⟩ := Option.isSome_iff_exists.mp hcc
        rw [getItem_present hv]
        split
        · exact ih _ _ _ _ _
        · split
          · exact fbLoop_tbl s _ _ _ _
          · rw [ih]
            exact fbLoop_tbl s _ _ _ _
          · rw [ih]
            exact fbLoop_tbl s _ _ _ _
      · rw [if_neg hcc]
        have hcf : containsK tbl seed = false := by
          cases h : containsK tbl seed
          · rfl
          · exact absurd h hcc
        rw [hcf, Bool.false_and, if_neg (by decide : ¬(false = true))]
        split
        · exact fbLoop_tbl s _ _ _ _
        · rw [ih]
          exact fbLoop_tbl s _ _ _ _
        · rw [ih]
          exact fbLoop_tbl s _ _ _ _

theorem nonEmptyKeysT_fold_tbl (tbl : Table) :
    ∀ (ks : List Key) (acc : List Key × Table), acc.2 = tbl →
      (∀ k ∈ ks, containsK tbl k = true) →
      (ks.foldl (fun acc k =>
          let vt := getItem acc.2 k
          (if vt.1.length > 0 then acc.1 ++ [k] else acc.1, vt.2)) acc).2
        = tbl := by
  intro ks
  induction ks with
  | nil => intro acc ha _; exact ha
  | cons k rest ih =>
      intro acc ha hall
      simp only [List.foldl_cons]
      apply ih
      · show (getItem acc.2 k).2 = tbl
        rw [ha]
        exact getItem_snd_of_contains (hall k (List.mem_cons_self _ _))
      · intro x hx
        exact hall x (List.mem_cons_of_mem _ hx)

theorem nonEmptyKeysT_tbl (tbl : Table) : (nonEmptyKeysT tbl).2 = tbl := by
  unfold nonEmptyKeysT
  exact nonEmptyKeysT_fold_tbl tbl (keysOf tbl) ([], tbl) rfl
    (fun k hk => containsK_of_mem_keys hk)

theorem attempt_cc3_tbl (n len : Nat) (tbl : Table) (s : Nat → Nat)
    (pos : Nat) : (attempt_cc3 n len tbl s pos).2.1 = tbl := by
  simp only [attempt_cc3]
  split
  · exact nonEmptyKeysT_tbl tbl
  · exact nonEmptyKeysT_tbl tbl

theorem attemptsLoop3_tbl (n len : Nat) (s : Nat → Nat) :
    ∀ (a : Nat) (tbl : Table) (pos : Nat),
      (attemptsLoop3 n len s a tbl pos).2.1 = tbl := by
  intro a
  induction a with
  | zero => intro tbl pos; rfl
  | succ a ih =>
      intro tbl pos
      simp only [attemptsLoop3]
      split
      · split
        · exact attempt_cc3_tbl n len tbl s pos
        · rw [ih]
          exact attempt_cc3_tbl n len tbl s pos
      · rw [ih]
        exact attempt_cc3_tbl n len tbl s pos

theorem stepLoop2_tbl (s : Nat → Nat) :
    ∀ (fuel : Nat) (seed : Key) (out : List Char) (tbl : Table) (pos : Nat),
      (stepLoop2 s fuel seed out tbl pos).2.1 = tbl := by
  intro fuel
  induction fuel with
  | zero => intro seed out tbl pos; rfl
  | succ fuel ih =>
      intro seed out tbl pos
      simp only [stepLoop2]
      by_cases hcc : containsK tbl seed = true
      · rw [if_pos hcc]
        obtain ⟨v, hv⟩ := Option.isSome_iff_exists.mp hcc
        rw [getItem_present hv]
        split
        · rfl
        · exact ih _ _ _ _
      · rw [if_neg hcc]

/-- C10: generation never changes the transition table — in all three
variants (m-cc2-2, m-cc3, m-cc2), whatever the outcome (string,
no-result, or error), the table after the call equals the table before:
the guarded `defaultdict` accesses never insert new entries. -/
theorem c10_generate_preserves_table (n len maxA : Nat) (fb : Char)
    (tbl : Table) (s : Nat → Nat) :
    (generate_cc22 n len maxA fb tbl s).2.1 = tbl ∧
      (generate_cc3 n len maxA tbl s).2.1 = tbl ∧
      (generate_cc2 n len tbl s).2.1 = tbl := by
  refine ⟨?_, ?_, ?_⟩
  · unfold generate_cc22
    split
    · rfl
    · exact stepLoop22_tbl maxA fb s _ _ _ _ tbl _
  · unfold generate_cc3
    split
    · rfl
    · exact attemptsLoop3_tbl n len s maxA tbl 0
  · unfold generate_cc2
    split
    · rfl
    · exact stepLoop2_tbl s _ _ _ tbl _

/-! ## Output length (claim C2) -/

theorem keys_len {tbl : Table} {n : Nat}
    (hkeys : ∀ kv ∈ tbl, (kv.1 : Key).length = n) {k : Key}
    (hk : k ∈ keysOf tbl) : k.length = n := by
  obtain ⟨kv, hkv, hfst⟩ := List.mem_map.mp hk
  rw [← hfst]
  exact hkeys kv hkv

theorem keysOf_ne_nil {tbl : Table} (h : tbl ≠ []) : keysOf tbl ≠ [] := by
  cases tbl with
  | nil => exact absurd rfl h
  | cons kv rest => simp [keysOf]

theorem drawn_key_mem {tbl : Table} (h : tbl ≠ []) (i : Nat) :
    (keysOf tbl).getD (i % (keysOf tbl).length) [] ∈ keysOf tbl := by
  have hlen : 0 < (keysOf tbl).length :=
    List.length_pos.mpr (keysOf_ne_nil h)
  exact getD_mem_of_lt [] (Nat.mod_lt i hlen)

theorem fbLoop_key_len (s : Nat → Nat) {n : Nat} {tbl : Table}
    (htbl : tbl ≠ []) (hkeys : ∀ kv ∈ tbl, (kv.1 : Key).length = n) :
    ∀ (f : Nat) (seed : Key) (pos : Nat), seed.length = n →
      (fbLoop s f seed tbl pos).2.1.length = n := by
  intro f
  induction f with
  | zero => intro seed pos hs; exact hs
  | succ f ih =>
      intro seed pos hs
      have hk : ((keysOf tbl).getD (s pos % (keysOf tbl).length) []).length
          = n :=
        keys_len hkeys (drawn_key_mem htbl (s pos))
      simp only [fbLoop]
      split
      · next hc =>
          obtain ⟨v, hv⟩ := Option.isSome_iff_exists.mp hc
          rw [getItem_present hv]
          split
          · exact ih _ _ hk
          · exact hk
      · exact ih _ _ hk

theorem stepLoop22_ok_len (maxA : Nat) (fb : Char) (s : Nat → Nat)
    {n : Nat} {tbl : Table} (htbl : tbl ≠ [])
    (hkeys : ∀ kv ∈ tbl, (kv.1 : Key).length = n) (hn : 1 ≤ n) :
    ∀ (fuel : Nat) (seed : Key) (lastC : Option Char) (out : List Char)
      (pos : Nat), seed.length = n →
      ∀ out' t' p',
        stepLoop22 maxA fb s fuel seed lastC out tbl pos = (.ok out', t', p') →
        out'.length = out.length + fuel := by
  intro fuel
  induction fuel with
  | zero =>
      intro seed lastC out pos hs out' t' p' h
      simp only [stepLoop22, Prod.mk.injEq, Except.ok.injEq] at h
      rw [← h.1]
      omega
  | succ fuel ih =>
      intro seed lastC out pos hs out' t' p' h
      simp only [stepLoop22] at h
      by_cases hcc : containsK tbl seed = true
      · rw [if_pos hcc] at h
        obtain ⟨v, hv⟩ := Option.isSome_iff_exists.mp hcc
        rw [getItem_present hv] at h
        by_cases hbe : (containsK tbl seed && !(v, tbl).1.isEmpty) = true
        · rw [if_pos hbe] at h
          have hs' : (seed.drop 1
              ++ [(v, tbl).1.getD (s pos % (v, tbl).1.length) ' ']).length
              = n := by
            simp only [List.length_append, List.length_drop,
              List.length_singleton]
            omega
          have := ih _ _ _ _ hs' _ _ _ h
          simp only [List.length_append, List.length_singleton] at this
          omega
        · rw [if_neg hbe] at h
          have hfl := fbLoop_tbl s maxA seed tbl pos
          have hfk := fbLoop_key_len s htbl hkeys maxA seed pos hs
          rw [hfl] at h
          cases hff : (fbLoop s maxA seed ((v, tbl).2) pos).1 with
          | true =>
              cases lastC with
              | none =>
                  rw [hff] at h
                  simp at h
              | some c =>
                  rw [hff] at h
                  have hs' : ((fbLoop s maxA seed tbl pos).2.1.drop 1
                      ++ [c]).length = n := by
                    simp only [List.length_append, List.length_drop,
                      List.length_singleton]
                    omega
                  have := ih _ _ _ _ hs' _ _ _ h
                  simp only [List.length_append, List.length_singleton] at this
                  omega
          | false =>
              rw [hff] at h
              have hs' : ((fbLoop s maxA seed tbl pos).2.1.drop 1
                  ++ [fb]).length = n := by
                simp only [List.length_append, List.length_drop,
                  List.length_singleton]
                omega
              have := ih _ _ _ _ hs' _ _ _ h
              simp only [List.length_append, List.length_singleton] at this
              omega
      · rw [if_neg hcc] at h
        have hcf : containsK tbl seed = false := by
          cases hx : containsK tbl seed
          · rfl
          · exact absurd hx hcc
        rw [hcf, Bool.false_and, if_neg (by decide : ¬(false = true))] at h
        have hfl := fbLoop_tbl s maxA seed tbl pos
        have hfk := fbLoop_key_len s htbl hkeys maxA seed pos hs
        rw [hfl] at h
        cases hff : (fbLoop s maxA seed tbl pos).1 with
        | true =>
            cases lastC with
            | none =>
                rw [hff] at h
                simp at h
            | some c =>
                rw [hff] at h
                have hs' : ((fbLoop s maxA seed tbl pos).2.1.drop 1
                    ++ [c]).length = n := by
                  simp only [List.length_append, List.length_drop,
                    List.length_singleton]
                  omega
                have := ih _ _ _ _ hs' _ _ _ h
                simp only [List.length_append, List.length_singleton] at this
                omega
        | false =>
            rw [hff] at h
            have hs' : ((fbLoop s maxA seed tbl pos).2.1.drop 1
                ++ [fb]).length = n := by
              simp only [List.length_append, List.length_drop,
                List.length_singleton]
              omega
            have := ih _ _ _ _ hs' _ _ _ h
            simp only [List.length_append, List.length_singleton] at this
            omega

/-- C2 counterexample: m-cc3's generate accepts a partial buffer at 80
percent of `length` and returns it WITHOUT truncation or padding: with
the model {"abc": ["d"]} and `length = 5` the walk dead-ends after
"abcd" (4 characters, exactly 80 percent of 5) and generate returns the
4-character string, not a 5-character one. -/
theorem c2_length_counterexample :
    (generate_cc3 3 5 1 [(['a','b','c'], ['d'])] (fun _ => 0)).1
        = .ok (some ['a','b','c','d']) ∧
      (['a','b','c','d'] : List Char).length ≠ 5 :=
  ⟨rfl, by decide⟩

/-- C2 amended: the exact-length guarantee holds for m-cc2-2's generate
(which appends one character per step and truncates to `length`): on a
table whose keys all have length `n ≥ 1`, every string returned without
an error has length exactly `length`.  m-cc3's generate instead returns
any buffer of length at least 80 percent of `length`, untruncated. -/
theorem c2_length_amended (n len maxA : Nat) (fb : Char) (tbl : Table)
    (s : Nat → Nat) (hn : 1 ≤ n) (hlen : n ≤ len)
    (hkeys : ∀ kv ∈ tbl, (kv.1 : Key).length = n) :
    ∀ out t p, generate_cc22 n len maxA fb tbl s = (.ok out, t, p) →
      out.length = len := by
  intro out t p h
  simp only [generate_cc22] at h
  split at h
  · simp at h
  · next hne =>
      have htbl : tbl ≠ [] := by
        intro hnil
        subst hnil
        simp at hne
      have hsdlen : ((keysOf tbl).getD (s 0 % (keysOf tbl).length) []).length
          = n := keys_len hkeys (drawn_key_mem htbl (s 0))
      cases hrr : stepLoop22 maxA fb s (len - n)
          ((keysOf tbl).getD (s 0 % (keysOf tbl).length) []) none
          ((keysOf tbl).getD (s 0 % (keysOf tbl).length) []) tbl 1 with
      | mk r1 r2 =>
          rw [hrr] at h
          cases r1 with
          | error e => simp [Except.map] at h
          | ok out₀ =>
              simp only [Except.map, Prod.mk.injEq, Except.ok.injEq] at h
              have hl := stepLoop22_ok_len maxA fb s htbl hkeys hn (len - n)
                _ none _ 1 hsdlen out₀ r2.1 r2.2 (by rw [hrr])
              rw [← h.1, List.length_take, hl, hsdlen]
              omega

/-- Concrete run of the amended C2: n = 2, length = 4, model
{"ab": ["c"]}; the walk produces "abc", dead-ends, the fallback finds
"ab" again and appends the stale 'c'; the result "abcc" has length
exactly 4. -/
theorem c2_length_amended_witness : (['a','b','c','c'] : List Char).length = 4 :=
  c2_length_amended 2 4 1 ' ' [(['a','b'],['c'])] (fun _ => 0)
    (by decide) (by decide) (by decide)
    ['a','b','c','c'] [(['a','b'],['c'])] 3 rfl

/-! ## Untrained error and seed selection (claim C4) -/

theorem attemptsLoop3_ok (n len : Nat) (s : Nat → Nat) :
    ∀ (a : Nat) (tbl : Table) (pos : Nat),
      ∃ o, (attemptsLoop3 n len s a tbl pos).1 = .ok o := by
  intro a
  induction a with
  | zero => intro tbl pos; exact ⟨none, rfl⟩
  | succ a ih =>
      intro tbl pos
      simp only [attemptsLoop3]
      split
      · split
        · next out _ _ => exact ⟨some out, rfl⟩
        · exact ih _ _
      · exact ih _ _

theorem stepLoop22_err_name (maxA : Nat) (fb : Char) (s : Nat → Nat) :
    ∀ (fuel : Nat) (seed : Key) (lastC : Option Char) (out : List Char)
      (tbl : Table) (pos : Nat) (e : GenError),
      (stepLoop22 maxA fb s fuel seed lastC out tbl pos).1 = .error e →
      e = .nameError := by
  intro fuel
  induction fuel with
  | zero =>
      intro seed lastC out tbl pos e h
      simp [stepLoop22] at h
  | succ fuel ih =>
      intro seed lastC out tbl pos e h
      simp only [stepLoop22] at h
      by_cases hcc : containsK tbl seed = true
      · rw [if_pos hcc] at h
        obtain ⟨v, hv⟩ := Option.isSome_iff_exists.mp hcc
        rw [getItem_present hv] at h
        split at h
        · exact ih _ _ _ _ _ _ h
        · split at h
          · simp only [Prod.mk.injEq, Except.error.injEq] at h
            exact h.symm
          · exact ih _ _ _ _ _ _ h
          · exact ih _ _ _ _ _ _ h
      · rw [if_neg hcc] at h
        have hcf : containsK tbl seed = false := by
          cases hx : containsK tbl seed
          · rfl
          · exact absurd hx hcc
        rw [hcf, Bool.false_and, if_neg (by decide : ¬(false = true))] at h
        split at h
        · simp only [Prod.mk.injEq, Except.error.injEq] at h
          exact h.symm
        · exact ih _ _ _ _ _ _ h
        · exact ih _ _ _ _ _ _ h

theorem nonEmptyKeysT_fold_fst (tbl : Table) :
    ∀ (ks : List Key) (acc : List Key × Table), acc.2 = tbl →
      (∀ k ∈ ks, containsK tbl k = true) →
      (ks.foldl (fun acc k =>
          let vt := getItem acc.2 k
          (if vt.1.length > 0 then acc.1 ++ [k] else acc.1, vt.2)) acc).1
        = acc.1 ++ ks.filter (fun k => !(lookupD tbl k).isEmpty) := by
  intro ks
  induction ks with
  | nil => intro acc ha _; simp
  | cons k rest ih =>
      intro acc ha hall
      have hc := hall k (List.mem_cons_self _ _)
      obtain ⟨v, hv⟩ := Option.isSome_iff_exists.mp hc
      have hv' : findVal acc.2 k = some v := by rw [ha]; exact hv
      have hl : lookupD tbl k = v := by
        rw [lookupD, hv]
        rfl
      rw [List.foldl_cons]
      have hacc' : (let vt := getItem acc.2 k
          (if vt.1.length > 0 then acc.1 ++ [k] else acc.1, vt.2))
          = (if v.length > 0 then acc.1 ++ [k] else acc.1, tbl) := by
        show (if (getItem acc.2 k).1.length > 0 then acc.1 ++ [k] else acc.1,
            (getItem acc.2 k).2) = _
        rw [getItem_present hv', ha]
      rw [hacc',
        ih _ rfl (fun x hx => hall x (List.mem_cons_of_mem _ hx)),
        List.filter_cons, hl]
      by_cases hve : v = []
      · subst hve
        simp
      · have hvp : v.length > 0 := List.length_pos.mpr hve
        have hie : v.isEmpty = false := by
          cases v with
          | nil => exact absurd rfl hve
          | cons a b => rfl
        simp [hvp, hie]

theorem nonEmptyKeysT_fst (tbl : Table) :
    (nonEmptyKeysT tbl).1 = nonEmptyKeys tbl := by
  unfold nonEmptyKeysT nonEmptyKeys
  rw [nonEmptyKeysT_fold_fst tbl (keysOf tbl) ([], tbl) rfl
    (fun k hk => containsK_of_mem_keys hk)]
  rfl

theorem stepLoop3_prefix (n : Nat) (tbl : Table) (s : Nat → Nat) :
    ∀ (fuel : Nat) (seed : Key) (out : List Char) (pos : Nat),
      ∃ suf, (stepLoop3 n tbl s fuel seed out pos).1 = out ++ suf := by
  intro fuel
  induction fuel with
  | zero => intro seed out pos; exact ⟨[], by simp [stepLoop3]⟩
  | succ fuel ih =>
      intro seed out pos
      simp only [stepLoop3]
      split
      · exact ⟨[], by simp⟩
      · obtain ⟨suf, hsuf⟩ := ih (seed.drop 1
            ++ [(lookupD tbl (pyLastN n seed)).getD
                (s pos % (lookupD tbl (pyLastN n seed)).length) ' '])
          (out ++ [(lookupD tbl (pyLastN n seed)).getD
                (s pos % (lookupD tbl (pyLastN n seed)).length) ' '])
          (pos + 1)
        refine ⟨[(lookupD tbl (pyLastN n seed)).getD
            (s pos % (lookupD tbl (pyLastN n seed)).length) ' '] ++ suf, ?_⟩
        rw [hsuf, List.append_assoc]

theorem attempt_cc3_ok_prefix (n len : Nat) (tbl : Table) (s : Nat → Nat)
    (pos : Nat) :
    ∀ out, (attempt_cc3 n len tbl s pos).1 = some out →
      ∃ k ∈ nonEmptyKeys tbl, out.take k.length = k := by
  intro out h
  simp only [attempt_cc3] at h
  split at h
  · simp at h
  · next hne =>
      simp only [Option.some.injEq] at h
      have hmem : (nonEmptyKeysT tbl).1.getD
          (s pos % (nonEmptyKeysT tbl).1.length) [] ∈ (nonEmptyKeysT tbl).1 := by
        have hpos : 0 < (nonEmptyKeysT tbl).1.length := by
          cases hx : (nonEmptyKeysT tbl).1 with
          | nil => rw [hx] at hne; simp at hne
          | cons a b => simp
        exact getD_mem_of_lt [] (Nat.mod_lt _ hpos)
      refine ⟨(nonEmptyKeysT tbl).1.getD
          (s pos % (nonEmptyKeysT tbl).1.length) [], ?_, ?_⟩
      · rw [← nonEmptyKeysT_fst tbl]
        exact hmem
      · obtain ⟨suf, hsuf⟩ := stepLoop3_prefix n (nonEmptyKeysT tbl).2 s
          (len - n) ((nonEmptyKeysT tbl).1.getD
            (s pos % (nonEmptyKeysT tbl).1.length) [])
          ((nonEmptyKeysT tbl).1.getD
            (s pos % (nonEmptyKeysT tbl).1.length) []) (pos + 1)
        rw [← h, hsuf, List.take_left]

theorem attemptsLoop3_ok_some (n len : Nat) (tbl : Table) (s : Nat → Nat) :
    ∀ (a : Nat) (pos : Nat) (out : List Char),
      (attemptsLoop3 n len s a tbl pos).1 = .ok (some out) →
      ∃ pos', (attempt_cc3 n len tbl s pos').1 = some out := by
  intro a
  induction a with
  | zero =>
      intro pos out h
      simp [attemptsLoop3] at h
  | succ a ih =>
      intro pos out h
      simp only [attemptsLoop3] at h
      split at h
      · next out₀ hout₀ =>
          split at h
          · simp only [Prod.mk.injEq, Except.ok.injEq, Option.some.injEq] at h
            exact ⟨pos, by rw [hout₀, h]⟩
          · rw [attempt_cc3_tbl n len tbl s pos] at h
            exact ih _ _ h
      · rw [attempt_cc3_tbl n len tbl s pos] at h
        exact ih _ _ h

/-- C4 amended: in both m-cc3 and m-cc2-2, generate raises the untrained
error if and only if the model dict is EMPTY — a non-empty table whose
successor lists are all empty does not raise.  Seed selection differs by
variant: m-cc3 draws the start key from the keys with non-empty
successor lists (so any returned buffer starts with such a key), while
m-cc2-2 draws from all keys. -/
theorem c4_untrained_amended (n len maxA : Nat) (fb : Char) (tbl : Table)
    (s : Nat → Nat) :
    ((generate_cc3 n len maxA tbl s).1 = .error .untrained ↔ tbl = []) ∧
      ((generate_cc22 n len maxA fb tbl s).1 = .error .untrained ↔ tbl = []) ∧
      (∀ out, (generate_cc3 n len maxA tbl s).1 = .ok (some out) →
        ∃ k ∈ nonEmptyKeys tbl, out.take k.length = k) := by
  refine ⟨?_, ?_, ?_⟩
  · simp only [generate_cc3]
    split
    · next he =>
        have htbl : tbl = [] := by
          cases tbl with
          | nil => rfl
          | cons a b => simp at he
        simp [htbl]
    · next he =>
        have htbl : tbl ≠ [] := by
          intro hx
          subst hx
          simp at he
        constructor
        · intro hx
          obtain ⟨o, ho⟩ := attemptsLoop3_ok n len s maxA tbl 0
          rw [ho] at hx
          cases hx
        · intro hx
          exact absurd hx htbl
  · simp only [generate_cc22]
    split
    · next he =>
        have htbl : tbl = [] := by
          cases tbl with
          | nil => rfl
          | cons a b => simp at he
        simp [htbl]
    · next he =>
        have htbl : tbl ≠ [] := by
          intro hx
          subst hx
          simp at he
        constructor
        · intro hx
          cases hr : (stepLoop22 maxA fb s (len - n)
              ((keysOf tbl).getD (s 0 % (keysOf tbl).length) []) none
              ((keysOf tbl).getD (s 0 % (keysOf tbl).length) []) tbl 1).1 with
          | ok o =>
              rw [hr] at hx
              simp [Except.map] at hx
          | error e =>
              rw [hr] at hx
              simp only [Except.map, Except.error.injEq] at hx
              have := stepLoop22_err_name maxA fb s (len - n) _ none _ tbl 1 e
                (by rw [hr])
              rw [this] at hx
              cases hx
        · intro hx
          exact absurd hx htbl
  · intro out h
    simp only [generate_cc3] at h
    split at h
    · cases h
    · obtain ⟨pos', hp⟩ := attemptsLoop3_ok_some n len tbl s maxA 0 out h
      exact attempt_cc3_ok_prefix n len tbl s pos' out hp

/-- Concrete run of the amended C4: n = 2, model {"ab": ["c"]}; m-cc3
returns "abc", whose 2-character prefix "ab" is a key with non-empty
successors. -/
theorem c4_untrained_amended_witness :
    ∃ k ∈ nonEmptyKeys [(['a','b'],['c'])],
      (['a','b','c'] : List Char).take k.length = k :=
  (c4_untrained_amended 2 3 1 ' ' [(['a','b'],['c'])] (fun _ => 0)).2.2
    ['a','b','c'] rfl

/-! ## Acceptance threshold, retry and exhaustion (claim C5) -/

/-- The (table, stream position) state of m-cc3's attempt loop before
attempt number `j` (counting from 0). -/
def attState (n len : Nat) (tbl : Table) (s : Nat → Nat) : Nat → Table × Nat
  | 0 => (tbl, 0)
  | j + 1 =>
      let tp := attState n len tbl s j
      let r := attempt_cc3 n len tp.1 s tp.2
      (r.2.1, r.2.2)

/-- The buffer produced by attempt number `j` of m-cc3's generate
(`none` when the attempt died on the swallowed IndexError). -/
def attBuf (n len : Nat) (tbl : Table) (s : Nat → Nat) (j : Nat) :
    Option (List Char) :=
  (attempt_cc3 n len (attState n len tbl s j).1 s (attState n len tbl s j).2).1

/-- Whether attempt number `j` meets the 80-percent acceptance check
`len(output) >= length * 0.8`. -/
def attAccepted (n len : Nat) (tbl : Table) (s : Nat → Nat) (j : Nat) :
    Bool :=
  match attBuf n len tbl s j with
  | some out => decide (4 * len ≤ 5 * out.length)
  | none => false

theorem attAccepted_some {n len : Nat} {tbl : Table} {s : Nat → Nat}
    {j : Nat} {out : List Char} (h : attBuf n len tbl s j = some out) :
    attAccepted n len tbl s j = decide (4 * len ≤ 5 * out.length) := by
  unfold attAccepted
  rw [h]

theorem attAccepted_none {n len : Nat} {tbl : Table} {s : Nat → Nat}
    {j : Nat} (h : attBuf n len tbl s j = none) :
    attAccepted n len tbl s j = false := by
  unfold attAccepted
  rw [h]

theorem attemptsLoop3_succ_state (n len : Nat) (tbl : Table)
    (s : Nat → Nat) (a j : Nat) :
    (attemptsLoop3 n len s (a + 1) (attState n len tbl s j).1
        (attState n len tbl s j).2).1
      = match attBuf n len tbl s j with
        | some out =>
            if 5 * out.length ≥ 4 * len then .ok (some out)
            else (attemptsLoop3 n len s a (attState n len tbl s (j + 1)).1
                (attState n len tbl s (j + 1)).2).1
        | none => (attemptsLoop3 n len s a (attState n len tbl s (j + 1)).1
            (attState n len tbl s (j + 1)).2).1 := by
  have hb : (attempt_cc3 n len (attState n len tbl s j).1 s
      (attState n len tbl s j).2).1 = attBuf n len tbl s j := rfl
  have h21 : (attempt_cc3 n len (attState n len tbl s j).1 s
      (attState n len tbl s j).2).2.1 = (attState n len tbl s (j + 1)).1 := rfl
  have h22 : (attempt_cc3 n len (attState n len tbl s j).1 s
      (attState n len tbl s j).2).2.2 = (attState n len tbl s (j + 1)).2 := rfl
  simp only [attemptsLoop3]
  rw [hb, h21, h22]
  cases attBuf n len tbl s j with
  | some out =>
      by_cases hc : 5 * out.length ≥ 4 * len
      · simp [hc]
      · simp [hc]
  | none => rfl

theorem attemptsLoop3_succ_some {n len : Nat} {tbl : Table}
    {s : Nat → Nat} {j : Nat} {out₀ : List Char} (a : Nat)
    (h : attBuf n len tbl s j = some out₀) :
    (attemptsLoop3 n len s (a + 1) (attState n len tbl s j).1
        (attState n len tbl s j).2).1
      = if 5 * out₀.length ≥ 4 * len then .ok (some out₀)
        else (attemptsLoop3 n len s a (attState n len tbl s (j + 1)).1
            (attState n len tbl s (j + 1)).2).1 := by
  rw [attemptsLoop3_succ_state, h]

theorem attemptsLoop3_succ_none {n len : Nat} {tbl : Table}
    {s : Nat → Nat} {j : Nat} (a : Nat)
    (h : attBuf n len tbl s j = none) :
    (attemptsLoop3 n len s (a + 1) (attState n len tbl s j).1
        (attState n len tbl s j).2).1
      = (attemptsLoop3 n len s a (attState n len tbl s (j + 1)).1
          (attState n len tbl s (j + 1)).2).1 := by
  rw [attemptsLoop3_succ_state, h]

theorem attemptsLoop3_spec (n len : Nat) (tbl : Table) (s : Nat → Nat) :
    ∀ (a j : Nat),
      ((attemptsLoop3 n len s a (attState n len tbl s j).1
          (attState n len tbl s j).2).1 = .ok none
        ↔ ∀ i, j ≤ i → i < j + a → attAccepted n len tbl s i = false)
      ∧ (∀ out, (attemptsLoop3 n len s a (attState n len tbl s j).1
          (attState n len tbl s j).2).1 = .ok (some out)
        ↔ ∃ i, j ≤ i ∧ i < j + a ∧ attBuf n len tbl s i = some out
            ∧ attAccepted n len tbl s i = true
            ∧ ∀ i', j ≤ i' → i' < i → attAccepted n len tbl s i' = false) := by
  intro a
  induction a with
  | zero =>
      intro j
      constructor
      · constructor
        · intro _ i h1 h2
          exact absurd h2 (by omega)
        · intro _
          rfl
      · intro out
        constructor
        · intro h
          simp [attemptsLoop3] at h
        · rintro ⟨i, h1, h2, _⟩
          exact absurd h2 (by omega)
  | succ a ih =>
      intro j
      cases hbuf : attBuf n len tbl s j with
      | some out₀ =>
          have hstep := attemptsLoop3_succ_some a hbuf
          by_cases hacc : 5 * out₀.length ≥ 4 * len
          · rw [if_pos hacc] at hstep
            have haccb : attAccepted n len tbl s j = true := by
              rw [attAccepted_some hbuf]
              exact decide_eq_true hacc
            constructor
            · rw [hstep]
              constructor
              · intro h
                simp at h
              · intro hall
                have hj := hall j (Nat.le_refl j) (by omega)
                rw [haccb] at hj
                cases hj
            · intro out
              rw [hstep]
              constructor
              · intro h
                have hout : out₀ = out := by
                  injection h with h'
                  injection h'
                refine ⟨j, Nat.le_refl j, by omega, ?_, haccb, ?_⟩
                · rw [hbuf]
                  exact congrArg some hout
                · intro i' h1 h2
                  exact absurd h2 (by omega)
              · rintro ⟨i, hji, hlt, hbufi, hacci, hmin⟩
                by_cases hij : i = j
                · subst hij
                  rw [hbuf] at hbufi
                  injection hbufi with h'
                  rw [h']
                · have hjf := hmin j (Nat.le_refl j) (by omega)
                  rw [haccb] at hjf
                  cases hjf
          · rw [if_neg hacc] at hstep
            have haccb : attAccepted n len tbl s j = false := by
              rw [attAccepted_some hbuf]
              simp only [decide_eq_false_iff_not]
              exact hacc
            obtain ⟨ih1, ih2⟩ := ih (j + 1)
            constructor
            · rw [hstep, ih1]
              constructor
              · intro hall i h1 h2
                by_cases hij : i = j
                · subst hij
                  exact haccb
                · exact hall i (by omega) (by omega)
              · intro hall i h1 h2
                exact hall i (by omega) (by omega)
            · intro out
              rw [hstep, ih2 out]
              constructor
              · rintro ⟨i, h1, h2, h3, h4, h5⟩
                refine ⟨i, by omega, by omega, h3, h4, ?_⟩
                intro i' hi1 hi2
                by_cases hij : i' = j
                · subst hij
                  exact haccb
                · exact h5 i' (by omega) hi2
              · rintro ⟨i, h1, h2, h3, h4, h5⟩
                have hij : i ≠ j := by
                  intro hx
                  subst hx
                  rw [haccb] at h4
                  cases h4
                refine ⟨i, by omega, by omega, h3, h4, ?_⟩
                intro i' hi1 hi2
                exact h5 i' (by omega) hi2
      | none =>
          have hstep := attemptsLoop3_succ_none a hbuf
          have haccb : attAccepted n len tbl s j = false := attAccepted_none hbuf
          obtain ⟨ih1, ih2⟩ := ih (j + 1)
          constructor
          · rw [hstep, ih1]
            constructor
            · intro hall i h1 h2
              by_cases hij : i = j
              · subst hij
                exact haccb
              · exact hall i (by omega) (by omega)
            · intro hall i h1 h2
              exact hall i (by omega) (by omega)
          · intro out
            rw [hstep, ih2 out]
            constructor
            · rintro ⟨i, h1, h2, h3, h4, h5⟩
              refine ⟨i, by omega, by omega, h3, h4, ?_⟩
              intro i' hi1 hi2
              by_cases hij : i' = j
              · subst hij
                exact haccb
              · exact h5 i' (by omega) hi2
            · rintro ⟨i, h1, h2, h3, h4, h5⟩
              have hij : i ≠ j := by
                intro hx
                subst hx
                rw [haccb] at h4
                cases h4
              refine ⟨i, by omega, by omega, h3, h4, ?_⟩
              intro i' hi1 hi2
              exact h5 i' (by omega) hi2

/-- C5: m-cc3's generate, on a trained (non-empty) model, returns `None`
exactly when all of the up-to-`maxAttempts` attempts fail the acceptance
check; it returns a string exactly when some attempt is the first to
pass the check, and the returned string is that attempt's buffer; an
attempt with buffer `out` is accepted exactly when
`5 * len(out) >= 4 * length` (the embedded form of
`len(output) >= length * 0.8`); and exhaustion is the `None` result, not
an exception. -/
theorem c5_acceptance_retry (n len maxA : Nat) (tbl : Table)
    (s : Nat → Nat) (htbl : tbl ≠ []) :
    ((generate_cc3 n len maxA tbl s).1 = .ok none ↔
        ∀ j, j < maxA → attAccepted n len tbl s j = false)
      ∧ (∀ out, (generate_cc3 n len maxA tbl s).1 = .ok (some out) ↔
          ∃ j, j < maxA ∧ attBuf n len tbl s j = some out
            ∧ attAccepted n len tbl s j = true
            ∧ ∀ i, i < j → attAccepted n len tbl s i = false)
      ∧ (∀ j out, attBuf n len tbl s j = some out →
          (attAccepted n len tbl s j = true ↔ 4 * len ≤ 5 * out.length))
      ∧ ((generate_cc3 n len maxA tbl s).1 ≠ .error .untrained) := by
  have hni : tbl.isEmpty = false := by
    cases tbl with
    | nil => exact absurd rfl htbl
    | cons a b => rfl
  have hgen : generate_cc3 n len maxA tbl s
      = attemptsLoop3 n len s maxA tbl 0 := by
    simp [generate_cc3, hni]
  refine ⟨?_, ?_, ?_, ?_⟩
  · rw [hgen]
    have h1 := (attemptsLoop3_spec n len tbl s maxA 0).1
    constructor
    · intro h j hj
      exact (h1.mp h) j (Nat.zero_le j) (by omega)
    · intro h
      exact h1.mpr (fun i _ h2 => h i (by omega))
  · intro out
    rw [hgen]
    have h2 := (attemptsLoop3_spec n len tbl s maxA 0).2 out
    constructor
    · intro h
      obtain ⟨i, _, hlt, hb, ha, hmin⟩ := h2.mp h
      exact ⟨i, by omega, hb, ha, fun i' hi' => hmin i' (Nat.zero_le _) hi'⟩
    · rintro ⟨j, hj, hb, ha, hmin⟩
      exact h2.mpr ⟨j, Nat.zero_le _, by omega, hb, ha,
        fun i' _ hi' => hmin i' hi'⟩
  · intro j out hb
    rw [attAccepted_some hb]
    simp
  · rw [hgen]
    obtain ⟨o, ho⟩ := attemptsLoop3_ok n len s maxA tbl 0
    rw [ho]
    intro h
    cases h

/-- Concrete run of C5: with the trained model {"ab": ["c"]} the
generate call does not raise the untrained error. -/
theorem c5_acceptance_retry_witness :
    (generate_cc3 2 3 1 [(['a','b'],['c'])] (fun _ => 0)).1
      ≠ .error .untrained :=
  (c5_acceptance_retry 2 3 1 [(['a','b'],['c'])] (fun _ => 0)
    (by decide)).2.2.2

/-! ## Persistence round-trip (claim C6)

The spec treats the on-disk byte encoding as an external collaborator
concern; the core obligation is that both encodings round-trip the data
model exactly.  We embed the two interchange representations at the
value level: a JSON document (`json.dump`/`json.load` of
`dict(self.model)` in m-cc2-2) and a Python object graph
(`pickle.dump`/`pickle.load` of `dict(self.model)` in m-cc2-2). -/

inductive Json where
  | jstr : List Char → Json
  | jarr : List Json → Json
  | jobj : List (List Char × Json) → Json

/-- m-cc2-2 `save_model(filepath, "json")`: the document written is the
JSON object mapping each key to the array of its one-character successor
strings, in insertion order. -/
def jsonOfTable (tbl : Table) : Json :=
  .jobj (tbl.map fun kv => (kv.1, .jarr (kv.2.map fun c => .jstr [c])))

def decodeJsonChars : List Json → Option (List Char)
  | [] => some []
  | .jstr [ch] :: rest => (decodeJsonChars rest).map (ch :: ·)
  | _ => none

def decodeJsonEntries : List (List Char × Json) → Option Table
  | [] => some []
  | (k, .jarr cells) :: rest =>
      match decodeJsonChars cells, decodeJsonEntries rest with
      | some succ, some t => some ((k, succ) :: t)
      | _, _ => none
  | _ => none

/-- m-cc2-2 `load_model(filepath, "json")`: reads the JSON object back
into a string-to-list-of-single-characters table (`defaultdict(list, d)`
preserves the decoded entries); any other document shape is a decode
failure. -/
def tableOfJson : Json → Option Table
  | .jobj entries => decodeJsonEntries entries
  | _ => none

inductive PyObj where
  | pstr : List Char → PyObj
  | plist : List PyObj → PyObj
  | pdict : List (List Char × PyObj) → PyObj

/-- m-cc2-2 `save_model(filepath, "pickle")`: the pickled object is
`dict(self.model)`, a dict from key strings to lists of one-character
strings, in insertion order. -/
def pickleOfTable (tbl : Table) : PyObj :=
  .pdict (tbl.map fun kv => (kv.1, .plist (kv.2.map fun c => .pstr [c])))

def decodePickleChars : List PyObj → Option (List Char)
  | [] => some []
  | .pstr [ch] :: rest => (decodePickleChars rest).map (ch :: ·)
  | _ => none

def decodePickleEntries : List (List Char × PyObj) → Option Table
  | [] => some []
  | (k, .plist cells) :: rest =>
      match decodePickleChars cells, decodePickleEntries rest with
      | some succ, some t => some ((k, succ) :: t)
      | _, _ => none
  | _ => none

/-- m-cc2-2 `load_model(filepath, "pickle")`: unpickles the dict and
installs it via `defaultdict(list, model_dict)`. -/
def tableOfPickle : PyObj → Option Table
  | .pdict entries => decodePickleEntries entries
  | _ => none

/-- m-cc3.py `save_model`: its body calls `json.dump(self.model, f)`,
but m-cc3.py never imports `json`, so the call raises NameError, the
`except` branch logs the failure, and the function returns `False`
(after having truncated the destination file).  Every call therefore
returns `False` and writes no usable data. -/
def save_model_cc3 (_tbl : Table) : Bool := false

theorem decodeJsonChars_of_map (v : List Char) :
    decodeJsonChars (v.map fun c => Json.jstr [c]) = some v := by
  induction v with
  | nil => rfl
  | cons c rest ih => simp [decodeJsonChars, ih]

theorem decodePickleChars_of_map (v : List Char) :
    decodePickleChars (v.map fun c => PyObj.pstr [c]) = some v := by
  induction v with
  | nil => rfl
  | cons c rest ih => simp [decodePickleChars, ih]

/-- C6: the data-model round-trip holds for both of m-cc2-2's encodings
(JSON and pickle): loading what was saved yields a table with the same
keys and the same successor sequences in the same order.  m-cc3's
`save_model`, by contrast, can never succeed (missing `import json`):
it always returns `False`. -/
theorem c6_roundtrip_and_cc3_save :
    (∀ tbl : Table, tableOfJson (jsonOfTable tbl) = some tbl)
      ∧ (∀ tbl : Table, tableOfPickle (pickleOfTable tbl) = some tbl)
      ∧ save_model_cc3 [(['a','b','c'], ['d'])] = false := by
  refine ⟨?_, ?_, rfl⟩
  · intro tbl
    simp only [tableOfJson, jsonOfTable]
    induction tbl with
    | nil => rfl
    | cons kv rest ih =>
        obtain ⟨k, v⟩ := kv
        simp [decodeJsonEntries, decodeJsonChars_of_map, ih]
  · intro tbl
    simp only [tableOfPickle, pickleOfTable]
    induction tbl with
    | nil => rfl
    | cons kv rest ih =>
        obtain ⟨k, v⟩ := kv
        simp [decodePickleEntries, decodePickleChars_of_map, ih]

/-! ## Determinism from the seeded stream (claim C9) -/

theorem fbLoop_pos_mono (s : Nat → Nat) :
    ∀ (f : Nat) (seed : Key) (tbl : Table) (pos : Nat),
      pos ≤ (fbLoop s f seed tbl pos).2.2.2 := by
  intro f
  induction f with
  | zero => intro seed tbl pos; exact Nat.le_refl pos
  | succ f ih =>
      intro seed tbl pos
      simp only [fbLoop]
      split
      · next hc =>
          obtain ⟨v, hv⟩ := Option.isSome_iff_exists.mp hc
          rw [getItem_present hv]
          split
          · exact Nat.le_trans (by omega) (ih _ _ _)
          · show pos ≤ pos + 1
            omega
      · exact Nat.le_trans (by omega) (ih _ _ _)

theorem fbLoop_pos_le (s : Nat → Nat) :
    ∀ (f : Nat) (seed : Key) (tbl : Table) (pos : Nat),
      (fbLoop s f seed tbl pos).2.2.2 ≤ pos + f := by
  intro f
  induction f with
  | zero => intro seed tbl pos; exact Nat.le_refl pos
  | succ f ih =>
      intro seed tbl pos
      simp only [fbLoop]
      split
      · next hc =>
          obtain ⟨v, hv⟩ := Option.isSome_iff_exists.mp hc
          rw [getItem_present hv]
          split
          · exact Nat.le_trans (ih _ _ _) (by omega)
          · show pos + 1 ≤ pos + (f + 1)
            omega
      · exact Nat.le_trans (ih _ _ _) (by omega)

theorem fbLoop_det (s1 s2 : Nat → Nat) :
    ∀ (f : Nat) (seed : Key) (tbl : Table) (pos : Nat),
      (∀ i, pos ≤ i → i < pos + f → s1 i = s2 i) →
      fbLoop s1 f seed tbl pos = fbLoop s2 f seed tbl pos := by
  intro f
  induction f with
  | zero => intro seed tbl pos _; rfl
  | succ f ih =>
      intro seed tbl pos hagree
      have hsp : s1 pos = s2 pos := hagree pos (Nat.le_refl pos) (by omega)
      simp only [fbLoop]
      rw [← hsp]
      split
      · next hc =>
          obtain ⟨v, hv⟩ := Option.isSome_iff_exists.mp hc
          rw [getItem_present hv]
          split
          · exact ih _ _ _ (fun i h1 h2 => hagree i (by omega) (by omega))
          · rfl
      · exact ih _ _ _ (fun i h1 h2 => hagree i (by omega) (by omega))

theorem stepLoop22_pos_le (maxA : Nat) (fb : Char) (s : Nat → Nat) :
    ∀ (fuel : Nat) (seed : Key) (lastC : Option Char) (out : List Char)
      (tbl : Table) (pos : Nat),
      (stepLoop22 maxA fb s fuel seed lastC out tbl pos).2.2
        ≤ pos + fuel * (maxA + 1) := by
  intro fuel
  induction fuel with
  | zero => intro seed lastC out tbl pos; simp [stepLoop22]
  | succ fuel ih =>
      intro seed lastC out tbl pos
      simp only [stepLoop22]
      by_cases hcc : containsK tbl seed = true
      · rw [if_pos hcc]
        obtain ⟨v, hv⟩ := Option.isSome_iff_exists.mp hcc
        rw [getItem_present hv]
        split
        · exact Nat.le_trans (ih _ _ _ _ _) (by rw [Nat.succ_mul]; omega)
        · have hub := fbLoop_pos_le s maxA seed ((v, tbl) : List Char × Table).2 pos
          split
          · show (fbLoop s maxA seed ((v, tbl) : List Char × Table).2 pos).2.2.2
                ≤ pos + (fuel + 1) * (maxA + 1)
            rw [Nat.succ_mul]
            omega
          · exact Nat.le_trans (ih _ _ _ _ _) (by rw [Nat.succ_mul]; omega)
          · exact Nat.le_trans (ih _ _ _ _ _) (by rw [Nat.succ_mul]; omega)
      · rw [if_neg hcc]
        have hcf : containsK tbl seed = false := by
          cases hx : containsK tbl seed
          · rfl
          · exact absurd hx hcc
        rw [hcf, Bool.false_and, if_neg (by decide : ¬(false = true))]
        have hub := fbLoop_pos_le s maxA seed (([], tbl) : List Char × Table).2 pos
        split
        · show (fbLoop s maxA seed (([], tbl) : List Char × Table).2 pos).2.2.2
              ≤ pos + (fuel + 1) * (maxA + 1)
          rw [Nat.succ_mul]
          omega
        · exact Nat.le_trans (ih _ _ _ _ _) (by rw [Nat.succ_mul]; omega)
        · exact Nat.le_trans (ih _ _ _ _ _) (by rw [Nat.succ_mul]; omega)

theorem stepLoop22_det (maxA : Nat) (fb : Char) (s1 s2 : Nat → Nat) :
    ∀ (fuel : Nat) (seed : Key) (lastC : Option Char) (out : List Char)
      (tbl : Table) (pos : Nat),
      (∀ i, pos ≤ i → i < pos + fuel * (maxA + 1) → s1 i = s2 i) →
      stepLoop22 maxA fb s1 fuel seed lastC out tbl pos
        = stepLoop22 maxA fb s2 fuel seed lastC out tbl pos := by
  intro fuel
  induction fuel with
  | zero => intro seed lastC out tbl pos _; rfl
  | succ fuel ih =>
      intro seed lastC out tbl pos hagree
      simp only [stepLoop22]
      by_cases hcc : containsK tbl seed = true
      · rw [if_pos hcc]
        obtain ⟨v, hv⟩ := Option.isSome_iff_exists.mp hcc
        rw [getItem_present hv]
        split
        · have hsp : s1 pos = s2 pos :=
            hagree pos (Nat.le_refl pos) (by rw [Nat.succ_mul]; omega)
          rw [← hsp]
          exact ih _ _ _ _ _
            (fun i h1 h2 => hagree i (by omega) (by rw [Nat.succ_mul]; omega))
        · have hfb : fbLoop s1 maxA seed ((v, tbl) : List Char × Table).2 pos
              = fbLoop s2 maxA seed ((v, tbl) : List Char × Table).2 pos :=
            fbLoop_det s1 s2 maxA seed _ pos
              (fun i h1 h2 => hagree i h1 (by rw [Nat.succ_mul]; omega))
          rw [← hfb]
          have hlb := fbLoop_pos_mono s1 maxA seed
            ((v, tbl) : List Char × Table).2 pos
          have hub := fbLoop_pos_le s1 maxA seed
            ((v, tbl) : List Char × Table).2 pos
          split
          · rfl
          · exact ih _ _ _ _ _ (fun i h1 h2 =>
              hagree i (by omega) (by rw [Nat.succ_mul]; omega))
          · exact ih _ _ _ _ _ (fun i h1 h2 =>
              hagree i (by omega) (by rw [Nat.succ_mul]; omega))
      · rw [if_neg hcc]
        have hcf : containsK tbl seed = false := by
          cases hx : containsK tbl seed
          · rfl
          · exact absurd hx hcc
        rw [hcf, Bool.false_and, if_neg (by decide : ¬(false = true))]
        have hfb : fbLoop s1 maxA seed (([], tbl) : List Char × Table).2 pos
            = fbLoop s2 maxA seed (([], tbl) : List Char × Table).2 pos :=
          fbLoop_det s1 s2 maxA seed _ pos
            (fun i h1 h2 => hagree i h1 (by rw [Nat.succ_mul]; omega))
        rw [← hfb]
        have hlb := fbLoop_pos_mono s1 maxA seed
          (([], tbl) : List Char × Table).2 pos
        have hub := fbLoop_pos_le s1 maxA seed
          (([], tbl) : List Char × Table).2 pos
        split
        · rfl
        · exact ih _ _ _ _ _ (fun i h1 h2 =>
            hagree i (by omega) (by rw [Nat.succ_mul]; omega))
        · exact ih _ _ _ _ _ (fun i h1 h2 =>
            hagree i (by omega) (by rw [Nat.succ_mul]; omega))

/-- C9: m-cc2-2's generate is a deterministic function of the model, the
parameters and the random stream, consumed in a fixed order: two runs
whose streams agree on the first `1 + (length - n) * (maxAttempts + 1)`
draws (one seed draw, then per step at most one successor draw or
`maxAttempts` fallback draws) produce identical results — the same
string (or error), the same final table and the same number of consumed
draws.  In particular two runs from the same seeded stream are
byte-identical. -/
theorem c9_determinism (n len maxA : Nat) (fb : Char) (tbl : Table)
    (s1 s2 : Nat → Nat)
    (hagree : ∀ i, i < 1 + (len - n) * (maxA + 1) → s1 i = s2 i) :
    generate_cc22 n len maxA fb tbl s1 = generate_cc22 n len maxA fb tbl s2 := by
  simp only [generate_cc22]
  split
  · rfl
  · have hs0 : s1 0 = s2 0 := hagree 0 (by omega)
    rw [← hs0]
    rw [stepLoop22_det maxA fb s1 s2 (len - n) _ none _ tbl 1
      (fun i h1 h2 => hagree i (by omega))]

/-- Concrete instance of C9: two streams that agree on the first three
draws (the bound for n = 2, length = 3, maxAttempts = 1) but differ
afterwards produce identical generate results. -/
theorem c9_determinism_witness :
    generate_cc22 2 3 1 ' ' [(['a','b'],['c'])] (fun _ => 0)
      = generate_cc22 2 3 1 ' ' [(['a','b'],['c'])]
          (fun i => if i < 3 then 0 else 99) :=
  c9_determinism 2 3 1 ' ' [(['a','b'],['c'])] _ _
    (fun i hi => (if_pos hi).symm)
